import Mathlib

/-!
# Verification of the discovery request queue (`go/discovery/discovery.go`)

This file gives a shallow embedding of the deduplicating, bounded-concurrency
dispatch queue implemented in `go/discovery/discovery.go`, and proves (or
refutes) the specification claims about it.

Modelling decisions:

* `inst.InstanceKey` is a Go struct with a `Hostname string` and a `Port int`
  field; we embed it as a structure with a `String` and an `Int` field.  The
  reserved `emptyKey` (the zero-valued struct) is embedded as the zero value.
* The Go field `concurrency` has type `uint` (64-bit); we embed it as a `Nat`
  with the wrap-around of the machine arithmetic made explicit: the increment
  carries a `% 2 ^ 64`, and the decrement is `uintDec`, equal to the
  mod-`2 ^ 64` decrement on all representable values (see `uintDec_eq_mod`).
* `knownKeys : map[inst.InstanceKey]bool` is used purely as a set (keys are
  only ever inserted with value `true`, deleted, and membership-tested), so it
  is embedded as a `Finset InstanceKey`.
* `queue : []inst.InstanceKey` becomes a `List InstanceKey` (head = front).
* `log.Fatal` in `pop` terminates the process; `pop` is therefore embedded as
  an `Option`-returning function, `none` being the fatal branch.
* The goroutines spawned by `dispatch` and the `done` channel are modelled by
  a ghost component `active : List InstanceKey`: dispatching appends the key
  (the spawned goroutine), and a completion signal may be delivered for any
  key currently in `active` (the goroutine sends the key on `done` when the
  processor returns).  The mutex makes every queue operation atomic, so runs
  of the system are interleavings of these atomic operations; the event
  schedules below enumerate exactly those interleavings.
-/

/-- Embeds `inst.InstanceKey` (Hostname string, Port int). -/
structure InstanceKey where
  Hostname : String
  Port : Int
deriving DecidableEq

/-- Embeds `var emptyKey`: the Go zero value of `inst.InstanceKey`. -/
def emptyKey : InstanceKey := ⟨"", 0⟩

/-- The modulus of the Go 64-bit `uint` arithmetic. -/
def uintSize : Nat := 2 ^ 64

/-- Embeds the `Queue` struct: `concurrency uint`, `knownKeys map[...]bool`,
`maxConcurrency uint`, `queue []inst.InstanceKey`.  The channels and the
processor callback live outside the state (see `Conf`). -/
structure Queue where
  concurrency : Nat
  knownKeys : Finset InstanceKey
  maxConcurrency : Nat
  queue : List InstanceKey

/-- Embeds `NewQueue`: concurrency 0, empty known keys, empty queue. -/
def NewQueue (maxConcurrency : Nat) : Queue :=
  { concurrency := 0
    knownKeys := ∅
    maxConcurrency := maxConcurrency
    queue := [] }

/-- Embeds `Queue.push`: if the key is not in `knownKeys`, add it to
`knownKeys` and append it to the queue; otherwise ignore it silently. -/
def Queue.push (q : Queue) (key : InstanceKey) : Queue :=
  if key ∉ q.knownKeys then
    { q with knownKeys := insert key q.knownKeys, queue := q.queue ++ [key] }
  else
    q

/-- Embeds `Queue.pop`: on an empty queue `log.Fatal` fires (modelled as
`none`); otherwise return the head, drop it from the queue and delete it from
`knownKeys`. -/
def Queue.pop (q : Queue) : Option (InstanceKey × Queue) :=
  match q.queue with
  | [] => none
  | key :: rest =>
    some (key, { q with queue := rest, knownKeys := q.knownKeys.erase key })

/-- Embeds `Queue.dispatch` minus the goroutine spawn (handled at the `Conf`
level): pop, increment `concurrency` (uint wrap), re-insert the key into
`knownKeys`.  Returns the dispatched key alongside the new state. -/
def Queue.dispatch (q : Queue) : Option (InstanceKey × Queue) :=
  match q.pop with
  | none => none
  | some (key, q1) =>
    some (key, { q1 with
                  concurrency := (q1.concurrency + 1) % uintSize
                  knownKeys := insert key q1.knownKeys })

/-- The Go wrapping `uint` decrement (`n--`): on every representable value
(`n < 2 ^ 64`) this equals `(n + 2 ^ 64 - 1) % 2 ^ 64` (see `uintDec_eq_mod`);
in particular `0` wraps to `2 ^ 64 - 1`. -/
def uintDec (n : Nat) : Nat := if n = 0 then uintSize - 1 else n - 1

/-- Embeds `Queue.acknowledgeJob`: delete the key from `knownKeys` and
decrement the `uint` counter `concurrency` (wrapping at 0). -/
def Queue.acknowledgeJob (q : Queue) (key : InstanceKey) : Queue :=
  { q with
     knownKeys := q.knownKeys.erase key
     concurrency := uintDec q.concurrency }

/-- A configuration: the `Queue` state plus the ghost list of keys whose
goroutines have been spawned but whose `done` signal has not yet been
consumed (in spawn order). -/
structure Conf where
  q : Queue
  active : List InstanceKey

/-- Embeds `Queue.maybeDispatch`: under the admission guard
`concurrency < maxConcurrency && len(queue) > 0`, dispatch once; the spawned
goroutine is recorded in `active`. -/
def Conf.maybeDispatch (c : Conf) : Conf :=
  if c.q.concurrency < c.q.maxConcurrency ∧ c.q.queue ≠ [] then
    match c.q.dispatch with
    | some (key, q1) => { q := q1, active := c.active ++ [key] }
    | none => c
  else
    c

/-- Embeds `Queue.queueAndMaybeDispatch`: push, then the same admission-guarded
dispatch. -/
def Conf.queueAndMaybeDispatch (c : Conf) (key : InstanceKey) : Conf :=
  let q1 := c.q.push key
  if q1.concurrency < q1.maxConcurrency ∧ q1.queue ≠ [] then
    match q1.dispatch with
    | some (k, q2) => { q := q2, active := c.active ++ [k] }
    | none => { c with q := q1 }
  else
    { c with q := q1 }

/-- Completion handling at the configuration level: `acknowledgeJob` plus
removal of the finished goroutine from the ghost `active` list. -/
def Conf.acknowledgeJob (c : Conf) (key : InstanceKey) : Conf :=
  { q := c.q.acknowledgeJob key, active := c.active.erase key }

/-- Embeds the `cleanup` loop, driven by a schedule `dones` of keys received on
the `done` channel: while `concurrency > 0 && len(queue) > 0`, run
`maybeDispatch`, receive a completion and `acknowledgeJob` it.  `none` models
blocking forever (no completion available) or an impossible schedule (a `done`
for a key with no running goroutine). -/
def Conf.cleanupRun (c : Conf) : List InstanceKey → Option Conf
  | [] => if c.q.concurrency > 0 ∧ c.q.queue ≠ [] then none else some c
  | key :: rest =>
    if c.q.concurrency > 0 ∧ c.q.queue ≠ [] then
      let c1 := c.maybeDispatch
      if key ∈ c1.active then Conf.cleanupRun (c1.acknowledgeJob key) rest
      else none
    else some c

/-- One event seen by the `select` in `HandleRequests`: an arrival on
`inputChan`, or a completion on `done`. -/
inductive Event where
  | arrive (key : InstanceKey)
  | done (key : InstanceKey)
deriving DecidableEq

/-- The arrival branch of `HandleRequests`: the reserved `emptyKey` is logged
and discarded (`break`), any other key goes through `queueAndMaybeDispatch`. -/
def Conf.handleArrive (c : Conf) (key : InstanceKey) : Conf :=
  if key = emptyKey then c else c.queueAndMaybeDispatch key

/-- Embeds `HandleRequests`, driven by a schedule: `events` are the arrivals
and completions served by the `select` before `inputChan` closes, and
`drainDones` is the completion schedule consumed by `cleanup` afterwards.
Returns the final configuration at `return`, or `none` for a schedule that is
impossible (a `done` for a key not running) or blocks forever. -/
def Conf.handleRequests (c : Conf) (events : List Event) (drainDones : List InstanceKey) :
    Option Conf :=
  match events with
  | [] => c.cleanupRun drainDones
  | Event.arrive key :: rest => Conf.handleRequests (c.handleArrive key) rest drainDones
  | Event.done key :: rest =>
    if key ∈ c.active then Conf.handleRequests (c.acknowledgeJob key) rest drainDones
    else none

/-- The initial configuration: a fresh queue, no goroutines. -/
def initConf (m : Nat) : Conf := { q := NewQueue m, active := [] }

/-!
## Transition system

The atomic operations on the shared state (all executed under `q.lock`):
`push`, the admission-guarded `dispatch`, and completion handling
(`acknowledgeJob` for a key whose goroutine is running).  `HandleRequests`,
`queueAndMaybeDispatch`, `maybeDispatch` and `cleanup` only ever compose these
three, so every state the program reaches is reachable in this system.
-/

/-- A label naming the atomic operation taken by a step. -/
inductive Label where
  | pushed (key : InstanceKey)
  | dispatched (key : InstanceKey)
  | completed (key : InstanceKey)
deriving DecidableEq

/-- Labeled atomic steps of the queue.  A `dispatched` step requires the
admission guard; a `completed` step requires a running goroutine for the key
(the `done` channel only ever carries keys of spawned goroutines). -/
inductive LStep : Conf → Label → Conf → Prop where
  | push (c : Conf) (key : InstanceKey) :
      LStep c (Label.pushed key) { q := c.q.push key, active := c.active }
  | dispatch (c : Conf) (key : InstanceKey) (q1 : Queue)
      (hc : c.q.concurrency < c.q.maxConcurrency) (hq : c.q.queue ≠ [])
      (hd : c.q.dispatch = some (key, q1)) :
      LStep c (Label.dispatched key) { q := q1, active := c.active ++ [key] }
  | complete (c : Conf) (key : InstanceKey) (hk : key ∈ c.active) :
      LStep c (Label.completed key) (c.acknowledgeJob key)

/-- An unlabeled step. -/
def Step (c c1 : Conf) : Prop := ∃ l, LStep c l c1

/-- Reachability from the freshly constructed queue. -/
def Reachable (m : Nat) (c : Conf) : Prop :=
  Relation.ReflTransGen Step (initConf m) c

/-- An execution from `c` to `cf` through the listed atomic operations. -/
inductive Exec : Conf → List Label → Conf → Prop where
  | nil (c : Conf) : Exec c [] c
  | cons {c c1 c2 : Conf} {l : Label} {tr : List Label}
      (h1 : LStep c l c1) (h2 : Exec c1 tr c2) : Exec c (l :: tr) c2

/-- The master state invariant of the queue, for a queue constructed with
`maxConcurrency = m`. -/
structure QInv (m : Nat) (c : Conf) : Prop where
  conc_eq : c.q.concurrency = c.active.length
  conc_le : c.q.concurrency ≤ c.q.maxConcurrency
  max_eq : c.q.maxConcurrency = m
  known_iff : ∀ k, k ∈ c.q.knownKeys ↔ k ∈ c.q.queue ∨ k ∈ c.active
  queue_nodup : c.q.queue.Nodup
  active_nodup : c.active.Nodup
  disj : ∀ k, k ∈ c.q.queue → k ∉ c.active

/-- A sample identifier. -/
def keyA : InstanceKey := ⟨"host-a", 3306⟩

/-- A second sample identifier. -/
def keyB : InstanceKey := ⟨"host-b", 3306⟩

/-- The configuration a fresh `maxConcurrency = 1` queue reaches after the
arrivals `keyA` then `keyB`: `keyA` is dispatched and running, `keyB` is
pending. -/
def stalled : Conf := ((initConf 1).handleArrive keyA).handleArrive keyB

/-- On representable values `uintDec` is exactly the mod-`2 ^ 64` decrement. -/
theorem uintDec_eq_mod (n : Nat) (h : n < uintSize) :
    uintDec n = (n + uintSize - 1) % uintSize := by
  have hpos : 0 < uintSize := by norm_num [uintSize]
  rcases Nat.eq_zero_or_pos n with h0 | h1
  · subst h0
    simp [uintDec]
  · rw [uintDec, if_neg (by omega)]
    have h2 : n + uintSize - 1 = uintSize + (n - 1) := by omega
    rw [h2, Nat.add_mod_left, Nat.mod_eq_of_lt (by omega)]

/-- Shape of a successful `dispatch`: the queue was `key :: rest`. -/
theorem dispatch_eq_some {q : Queue} {key : InstanceKey} {q1 : Queue}
    (hd : q.dispatch = some (key, q1)) :
    ∃ rest, q.queue = key :: rest ∧
      q1 = { q with
              queue := rest
              knownKeys := insert key (q.knownKeys.erase key)
              concurrency := (q.concurrency + 1) % uintSize } := by
  cases hq : q.queue with
  | nil => simp [Queue.dispatch, Queue.pop, hq] at hd
  | cons k rest =>
    simp [Queue.dispatch, Queue.pop, hq] at hd
    obtain ⟨hk, hq1⟩ := hd
    subst hk
    exact ⟨rest, rfl, hq1.symm⟩

/-- The invariant holds initially. -/
theorem qinv_init (m : Nat) : QInv m (initConf m) := by
  refine ⟨rfl, Nat.zero_le m, rfl, ?_, List.nodup_nil, List.nodup_nil, ?_⟩
  · intro k
    simp [initConf, NewQueue]
  · intro k hk
    simp [initConf, NewQueue] at hk

set_option maxRecDepth 2048 in
/-- Every atomic step preserves the invariant (for a `uint` bound
`m < 2 ^ 64`). -/
theorem qinv_step {m : Nat} {c c1 : Conf} {l : Label} (hm : m < uintSize)
    (hinv : QInv m c) (hstep : LStep c l c1) : QInv m c1 := by
  obtain ⟨hconc, hle, hmax, hknown, hqnd, hand, hdisj⟩ := hinv
  cases hstep with
  | push key =>
    by_cases hk : key ∈ c.q.knownKeys
    · have hpush : c.q.push key = c.q := by simp [Queue.push, hk]
      rw [hpush]
      exact ⟨hconc, hle, hmax, hknown, hqnd, hand, hdisj⟩
    · have hkq : key ∉ c.q.queue := fun h => hk ((hknown key).mpr (Or.inl h))
      have hka : key ∉ c.active := fun h => hk ((hknown key).mpr (Or.inr h))
      have hpush : c.q.push key =
          { c.q with knownKeys := insert key c.q.knownKeys,
                     queue := c.q.queue ++ [key] } := by
        simp [Queue.push, hk]
      rw [hpush]
      refine ⟨hconc, hle, hmax, ?_, ?_, hand, ?_⟩
      · intro k
        by_cases hkk : k = key <;> simp [hkk, hknown k, hka]
      · simp [List.nodup_append, hqnd, hkq]
      · intro k hkmem
        simp at hkmem
        rcases hkmem with h | h
        · exact hdisj k h
        · rw [h]; exact hka
  | dispatch key q1 hc hq hd =>
    obtain ⟨rest, hqueue, hq1⟩ := dispatch_eq_some hd
    have hkeyq : key ∈ c.q.queue := by rw [hqueue]; exact List.mem_cons_self key rest
    have hka : key ∉ c.active := hdisj key hkeyq
    have hkrest : key ∉ rest := by
      have := hqnd
      rw [hqueue] at this
      exact (List.nodup_cons.mp this).1
    have hcW : c.q.concurrency + 1 < uintSize := by
      have : c.q.concurrency < m := hmax ▸ hc
      omega
    subst hq1
    refine ⟨?_, ?_, hmax, ?_, ?_, ?_, ?_⟩
    · show (c.q.concurrency + 1) % uintSize = (c.active ++ [key]).length
      rw [Nat.mod_eq_of_lt hcW, hconc]
      simp
    · show (c.q.concurrency + 1) % uintSize ≤ c.q.maxConcurrency
      rw [Nat.mod_eq_of_lt hcW]
      omega
    · intro k
      by_cases hkk : k = key
      · subst hkk
        simp [hkrest]
      · simp [hkk, Finset.mem_erase, hknown k, hqueue]
    · have := hqnd
      rw [hqueue] at this
      exact (List.nodup_cons.mp this).2
    · simp [List.nodup_append, hand, hka]
    · intro k hkmem
      have hkq : k ∈ c.q.queue := by rw [hqueue]; exact List.mem_cons_of_mem key hkmem
      have hkne : k ≠ key := fun h => hkrest (h ▸ hkmem)
      simp [hdisj k hkq, hkne]
  | complete key hk =>
    have hpos : 1 ≤ c.q.concurrency := by
      rw [hconc]
      exact List.length_pos.mpr (List.ne_nil_of_mem hk)
    have hcW : c.q.concurrency < uintSize := by
      have := hmax ▸ hle
      omega
    have hmod : uintDec c.q.concurrency = c.q.concurrency - 1 := by
      rw [uintDec, if_neg (by omega)]
    have hkq : key ∉ c.q.queue := fun h => hdisj key h hk
    refine ⟨?_, ?_, hmax, ?_, hqnd, hand.erase key, ?_⟩
    · show uintDec c.q.concurrency = (c.active.erase key).length
      rw [hmod, List.length_erase_of_mem hk, hconc]
    · show uintDec c.q.concurrency ≤ c.q.maxConcurrency
      rw [hmod]
      omega
    · intro k
      by_cases hkk : k = key
      · subst hkk
        simp [Conf.acknowledgeJob, Queue.acknowledgeJob, hkq, hand.mem_erase_iff]
      · simp [Conf.acknowledgeJob, Queue.acknowledgeJob, Finset.mem_erase, hkk,
          hknown k, hand.mem_erase_iff]
    · intro k hkmem hkerase
      exact hdisj k hkmem (List.mem_of_mem_erase hkerase)

/-- The invariant holds in every reachable state. -/
theorem qinv_reachable {m : Nat} {c : Conf} (hm : m < uintSize)
    (h : Reachable m c) : QInv m c := by
  induction h with
  | refl => exact qinv_init m
  | tail hab hbc ih =>
    obtain ⟨l, hl⟩ := hbc
    exact qinv_step hm ih hl

/-- Pushing does not change `maxConcurrency`. -/
theorem push_maxConcurrency (q : Queue) (key : InstanceKey) :
    (q.push key).maxConcurrency = q.maxConcurrency := by
  rw [Queue.push]
  split <;> rfl

/-!
## Claims
-/

/-- C4: if `K` is already in the known set (queued or active), `push K` leaves
the whole queue state unchanged — known set, pending sequence and active
count. -/
theorem push_known_unchanged (q : Queue) (key : InstanceKey)
    (h : key ∈ q.knownKeys) : q.push key = q := by
  simp [Queue.push, h]

/-- Witness for C4: pushing `keyA` twice into a fresh queue equals pushing it
once. -/
theorem push_known_unchanged_witness :
    ((NewQueue 1).push keyA).push keyA = (NewQueue 1).push keyA :=
  push_known_unchanged ((NewQueue 1).push keyA) keyA (by decide)

/-- C7: `pop` hits the fatal branch iff the pending sequence is empty; on a
non-empty pending sequence it returns the head, removes it from the pending
sequence and from the known set; and under the admission guard the fatal
branch is unreachable. -/
theorem pop_fatal_iff_empty (q : Queue) :
    (q.pop = none ↔ q.queue = []) ∧
    (∀ key rest, q.queue = key :: rest →
      q.pop = some (key, { q with queue := rest, knownKeys := q.knownKeys.erase key })) ∧
    (q.concurrency < q.maxConcurrency ∧ q.queue ≠ [] → q.pop ≠ none) := by
  refine ⟨?_, ?_, ?_⟩
  · cases hq : q.queue <;> simp [Queue.pop, hq]
  · intro key rest hq
    simp [Queue.pop, hq]
  · rintro ⟨-, hq⟩
    cases hqq : q.queue with
    | nil => exact absurd hqq hq
    | cons k t => simp [Queue.pop, hqq]

/-- Witness for C7: popping a queue holding exactly `keyA` yields `keyA` and
the emptied state. -/
theorem pop_fatal_iff_empty_witness :
    ((NewQueue 1).push keyA).pop =
      some (keyA,
        { (NewQueue 1).push keyA with
            queue := []
            knownKeys := ((NewQueue 1).push keyA).knownKeys.erase keyA }) :=
  (pop_fatal_iff_empty ((NewQueue 1).push keyA)).2.1 keyA [] (by decide)

/-- C8: an arrival of the reserved empty identifier is discarded by the run
loop without any state change (in particular no processor call is started:
the running-goroutine list is unchanged), and the loop just continues. -/
theorem empty_key_ignored (c : Conf) :
    c.handleArrive emptyKey = c ∧
    (c.handleArrive emptyKey).active = c.active ∧
    (c.handleArrive emptyKey).q.knownKeys.card = c.q.knownKeys.card ∧
    ∀ rest d, Conf.handleRequests c (Event.arrive emptyKey :: rest) d =
      Conf.handleRequests c rest d := by
  refine ⟨?_, ?_, ?_, ?_⟩ <;> simp [Conf.handleArrive, Conf.handleRequests]

/-- C9: `NewQueue` applies no validation to `maxConcurrency = 0`; with it the
admission guard is false in every state, so `maybeDispatch` is the identity,
`queueAndMaybeDispatch` degenerates to a bare `push` (arrivals still
accumulate), and no `dispatched` step (no processor call) is possible. -/
theorem maxConcurrency_zero_never_dispatches (c : Conf) (key : InstanceKey)
    (h : c.q.maxConcurrency = 0) :
    (NewQueue 0).maxConcurrency = 0 ∧ (NewQueue 0).concurrency = 0 ∧
    c.maybeDispatch = c ∧
    c.queueAndMaybeDispatch key = { q := c.q.push key, active := c.active } ∧
    ∀ k c1, ¬ LStep c (Label.dispatched k) c1 := by
  refine ⟨rfl, rfl, ?_, ?_, ?_⟩
  · simp [Conf.maybeDispatch, h]
  · have hp : (c.q.push key).maxConcurrency = 0 := by rw [push_maxConcurrency, h]
    simp [Conf.queueAndMaybeDispatch, hp]
  · intro k c1 hstep
    cases hstep with
    | dispatch k q1 hc hq hd =>
      rw [h] at hc
      exact absurd hc (Nat.not_lt_zero _)

/-- Witness for C9: a queue built with `maxConcurrency = 0` never dispatches;
its `maybeDispatch` is the identity and an arrival only accumulates. -/
theorem maxConcurrency_zero_never_dispatches_witness :
    (initConf 0).maybeDispatch = initConf 0 ∧
    (initConf 0).queueAndMaybeDispatch keyA =
      { q := (initConf 0).q.push keyA, active := (initConf 0).active } :=
  ⟨(maxConcurrency_zero_never_dispatches (initConf 0) keyA rfl).2.2.1,
   (maxConcurrency_zero_never_dispatches (initConf 0) keyA rfl).2.2.2.1⟩

/-- C10: `acknowledgeJob` decrements the `uint` active count with no zero
guard: from a state with count 0 it wraps to `2 ^ 64 - 1`, and deleting a key
absent from the known set leaves the known set unchanged. -/
theorem acknowledgeJob_underflow_wraps (q : Queue) (key : InstanceKey)
    (h0 : q.concurrency = 0) :
    (q.acknowledgeJob key).concurrency = 2 ^ 64 - 1 ∧
    (key ∉ q.knownKeys → (q.acknowledgeJob key).knownKeys = q.knownKeys) := by
  constructor
  · simp [Queue.acknowledgeJob, uintDec, h0, uintSize]
  · intro hk
    simp [Queue.acknowledgeJob, Finset.erase_eq_of_not_mem hk]

/-- Witness for C10: acknowledging a job on a fresh queue (active count 0,
`keyA` unknown) wraps the count to `2 ^ 64 - 1` and keeps the known set. -/
theorem acknowledgeJob_underflow_wraps_witness :
    ((NewQueue 3).acknowledgeJob keyA).concurrency = 2 ^ 64 - 1 ∧
    ((NewQueue 3).acknowledgeJob keyA).knownKeys = (NewQueue 3).knownKeys :=
  ⟨(acknowledgeJob_underflow_wraps (NewQueue 3) keyA rfl).1,
   (acknowledgeJob_underflow_wraps (NewQueue 3) keyA rfl).2 (by decide)⟩

/-- C3: in every state reachable from the fresh queue by pushes, guarded
dispatches and completion handling, the active count stays between 0 and
`maxConcurrency`. -/
theorem reachable_concurrency_bounded (m : Nat) (c : Conf) (hpos : 0 < m)
    (hm : m < 2 ^ 64) (h : Reachable m c) :
    0 ≤ c.q.concurrency ∧ c.q.concurrency ≤ m := by
  have hW : m < uintSize := by simpa [uintSize] using hm
  have hinv := qinv_reachable hW h
  exact ⟨Nat.zero_le _, hinv.max_eq ▸ hinv.conc_le⟩

/-- Witness for C3: the fresh `maxConcurrency = 1` queue satisfies the bound. -/
theorem reachable_concurrency_bounded_witness :
    0 ≤ (initConf 1).q.concurrency ∧ (initConf 1).q.concurrency ≤ 1 :=
  reachable_concurrency_bounded 1 (initConf 1) (by norm_num) (by norm_num)
    Relation.ReflTransGen.refl

/-- C5: in every reachable state a key is in the known set iff it is pending
or active; the pending sequence has no duplicates and no active key is also
pending. -/
theorem reachable_known_iff_pending_or_active (m : Nat) (c : Conf)
    (hm : m < 2 ^ 64) (h : Reachable m c) :
    (∀ k, k ∈ c.q.knownKeys ↔ k ∈ c.q.queue ∨ k ∈ c.active) ∧
    c.q.queue.Nodup ∧
    ∀ k, k ∈ c.active → k ∉ c.q.queue := by
  have hW : m < uintSize := by simpa [uintSize] using hm
  have hinv := qinv_reachable hW h
  exact ⟨hinv.known_iff, hinv.queue_nodup, fun k hk hq => hinv.disj k hq hk⟩

/-- Witness for C5: the characterization instantiated at the fresh queue. -/
theorem reachable_known_iff_pending_or_active_witness :
    (emptyKey ∈ (initConf 1).q.knownKeys ↔
      emptyKey ∈ (initConf 1).q.queue ∨ emptyKey ∈ (initConf 1).active) ∧
    (initConf 1).q.queue.Nodup :=
  ⟨(reachable_known_iff_pending_or_active 1 (initConf 1) (by norm_num)
      Relation.ReflTransGen.refl).1 emptyKey,
   (reachable_known_iff_pending_or_active 1 (initConf 1) (by norm_num)
      Relation.ReflTransGen.refl).2.1⟩

/-- FIFO kernel: if `A` precedes `B` in the pending sequence of an invariant
state, then along any execution the first `dispatched B` is preceded by a
`dispatched A` — because every dispatch removes exactly the head the pending
sequence. -/
theorem fifo_aux {m : Nat} (A B : InstanceKey) (hne : A ≠ B) (hm : m < uintSize) :
    ∀ (c cf : Conf) (tr : List Label), Exec c tr cf → QInv m c →
      List.Sublist [A, B] c.q.queue →
      ∀ t1 t2, tr = t1 ++ Label.dispatched B :: t2 → Label.dispatched B ∉ t1 →
      Label.dispatched A ∈ t1 := by
  intro c cf tr hexec
  induction hexec with
  | nil =>
    intro _ _ t1 t2 hsplit _
    cases t1 <;> simp at hsplit
  | cons h1 h2 ih =>
    intro hinv hAB t1 t2 hsplit hfirst
    have hinv1 := qinv_step hm hinv h1
    cases t1 with
    | nil =>
      simp only [List.nil_append, List.cons.injEq] at hsplit
      obtain ⟨hl, -⟩ := hsplit
      subst hl
      cases h1 with
      | dispatch key q1 hc hq hd =>
        obtain ⟨rest, hqueue, -⟩ := dispatch_eq_some hd
        have hnd := hinv.queue_nodup
        rw [hqueue] at hAB hnd
        cases hAB with
        | cons _ h =>
          exact absurd (h.subset (by simp)) (List.nodup_cons.mp hnd).1
        | cons₂ _ h => exact absurd rfl hne
    | cons l0 t1x =>
      simp only [List.cons_append, List.cons.injEq] at hsplit
      obtain ⟨hl0, htr⟩ := hsplit
      rw [hl0] at h1
      have hfirstx : Label.dispatched B ∉ t1x := fun hmem =>
        hfirst (List.mem_cons_of_mem _ hmem)
      have hlne : l0 ≠ Label.dispatched B := fun h =>
        hfirst (h ▸ List.mem_cons_self _ _)
      by_cases hlA : l0 = Label.dispatched A
      · rw [hlA]
        exact List.mem_cons_self _ _
      · refine List.mem_cons_of_mem _ (ih hinv1 ?_ t1x t2 htr hfirstx)
        cases h1 with
        | push key =>
          simp only [Queue.push]
          split
          · exact hAB.trans (List.sublist_append_left _ _)
          · exact hAB
        | dispatch key q1 hc hq hd =>
          obtain ⟨rest, hqueue, hq1⟩ := dispatch_eq_some hd
          have hkeyA : A ≠ key := fun h => hlA (by rw [h])
          rw [hqueue] at hAB
          have hrest : List.Sublist [A, B] rest := by
            cases hAB with
            | cons _ h => exact h
            | cons₂ _ h => exact absurd rfl hkeyA
          rw [hq1]
          exact hrest
        | complete key hk =>
          exact hAB

/-- C6: dispatch order is strict FIFO — every dispatch step removes exactly
the head of the pending sequence, so if `A` precedes `B` in the pending
sequence of a reachable state, then in any execution from there the first
dispatch of `B` is preceded by a dispatch of `A`. -/
theorem fifo_dispatch_order (m : Nat) (c cf : Conf) (tr t1 t2 : List Label)
    (A B : InstanceKey) (hne : A ≠ B) (hm : m < 2 ^ 64)
    (hreach : Reachable m c) (hexec : Exec c tr cf)
    (hAB : List.Sublist [A, B] c.q.queue)
    (hsplit : tr = t1 ++ Label.dispatched B :: t2)
    (hfirst : Label.dispatched B ∉ t1) :
    Label.dispatched A ∈ t1 := by
  have hW : m < uintSize := by simpa [uintSize] using hm
  exact fifo_aux A B hne hW c cf tr hexec (qinv_reachable hW hreach) hAB t1 t2
    hsplit hfirst

/-- A `maybeDispatch` whose guard holds and whose `dispatch` succeeds is a
`dispatched` step. -/
theorem lstep_maybeDispatch {c : Conf} {key : InstanceKey} {q1 : Queue}
    (hc : c.q.concurrency < c.q.maxConcurrency) (hq : c.q.queue ≠ [])
    (hd : c.q.dispatch = some (key, q1)) :
    LStep c (Label.dispatched key) c.maybeDispatch := by
  have hmd : c.maybeDispatch = { q := q1, active := c.active ++ [key] } := by
    rw [Conf.maybeDispatch, if_pos ⟨hc, hq⟩, hd]
  rw [hmd]
  exact LStep.dispatch c key q1 hc hq hd

/-- Witness for C6: with `maxConcurrency = 2`, after pushing `keyA` then
`keyB`, the execution dispatching both dispatches `keyA` before
`keyB`. -/
theorem fifo_dispatch_order_witness :
    Label.dispatched keyA ∈ [Label.dispatched keyA] := by
  refine fifo_dispatch_order 2 { q := ((NewQueue 2).push keyA).push keyB, active := [] }
    ({ q := ((NewQueue 2).push keyA).push keyB,
       active := ([] : List InstanceKey) } : Conf).maybeDispatch.maybeDispatch
    [Label.dispatched keyA, Label.dispatched keyB] [Label.dispatched keyA] []
    keyA keyB (by decide) (by norm_num) ?_ ?_ ?_ rfl (by decide)
  case refine_1 =>
    exact Relation.ReflTransGen.tail
      (Relation.ReflTransGen.tail Relation.ReflTransGen.refl
        ⟨Label.pushed keyA, LStep.push (initConf 2) keyA⟩)
      ⟨Label.pushed keyB, LStep.push _ keyB⟩
  case refine_2 =>
    refine Exec.cons (lstep_maybeDispatch (by decide) (by decide) rfl) ?_
    refine Exec.cons (lstep_maybeDispatch (by decide) (by decide) rfl) (Exec.nil _)
  case refine_3 =>
    exact List.Sublist.refl _

/-- C1 (refuted by the code): drain is incomplete.  With `maxConcurrency = 1`,
schedule the arrivals `keyA`, `keyB`, then the completion of `keyA`; then the
input channel closes.  `keyA` is dispatched, `keyB` stays pending; after the
completion the state has `concurrency = 0` and pending `[keyB]`, so
the `cleanup` loop guard `concurrency > 0 && len(queue) > 0` is false and
`HandleRequests` returns with `keyB` still pending and never dispatched —
the enqueued, non-merged `keyB` is lost. -/
theorem handleRequests_drain_incomplete :
    (Conf.handleRequests (initConf 1)
        [Event.arrive keyA, Event.arrive keyB, Event.done keyA] []).map
      (fun c => (c.q.queue, c.q.concurrency, c.active)) = some ([keyB], 0, []) := by
  decide

/-- C2 (refuted by the code): the completion branch of the main loop runs only
`acknowledgeJob` — no admission step.  From `stalled` (`maxConcurrency = 1`,
`keyA` running, `keyB` pending), handling the completion of `keyA` leaves `keyB`
pending with `concurrency = 0` and nothing running, even though the admission
guard now holds — the admission step (`maybeDispatch`) would have dispatched
`keyB`.  Consequently the run loop can never see a completion for `keyB`
without a further arrival: the schedule `done keyA, done keyB` is
impossible. -/
theorem handleRequests_completion_skips_admission :
    (stalled.acknowledgeJob keyA).q.queue = [keyB] ∧
    (stalled.acknowledgeJob keyA).q.concurrency = 0 ∧
    (stalled.acknowledgeJob keyA).active = [] ∧
    (stalled.acknowledgeJob keyA).q.concurrency <
      (stalled.acknowledgeJob keyA).q.maxConcurrency ∧
    ((stalled.acknowledgeJob keyA).maybeDispatch).active = [keyB] ∧
    (Conf.handleRequests stalled [Event.done keyA, Event.done keyB] []).isNone = true := by
  decide
